import Mathlib

/-!
Verification of the ScrollLearn answer-grading and scheduling core.

Shallow embedding of the TypeScript sources:
  - fuzzy.ts      : Levenshtein distance (two-row Wagner-Fischer DP),
                    similarity, findBestMatch
  - parser.ts     : normalizeText
  - grading.ts    : gradeAnswer and the per-kind graders
  - scheduler.ts  : sm2Update and its helpers
  - storage.ts / background/index.ts : due-card selection pipeline

Modelling conventions:
  - JS numbers are modelled as rationals; timestamps are rationals
    in milliseconds.
  - JS strings are Lean strings; NFKC normalization and full-Unicode
    case folding are modelled by their restrictions to ASCII (the
    identity resp. Char.toLower), which agree with JS on every string
    appearing in the claims.
  - Fallible paths (a JS TypeError from a union-typed field used at
    the wrong shape) are modelled with Option: none is a thrown error.
  - The JS regular-expression engine is abstracted as a compile oracle
    passed as a parameter; a malformed pattern compiles to none,
    matching the try/catch in the source.
  - Array.prototype.sort with a consistent comparator is a stable sort;
    it is modelled with insertion sort, which is stable.
-/

/-! ## Similarity engine (fuzzy.ts) -/

/-- Substitution cost of the Levenshtein recurrence: 0 when the
characters agree, 1 otherwise (fuzzy.ts, `const cost = ...`). -/
def levCost (x y : Char) : ℕ :=
  if x = y then 0 else 1

/-- The classic insert/delete/substitute edit-distance recurrence with
unit costs.  This is the mathematical function the Wagner-Fischer loop
in fuzzy.ts computes; `levImpl_eq_levRec` below proves the loop equal
to it. -/
def levRec : List Char → List Char → ℕ
  | [], ys => ys.length
  | x :: xs, [] => (x :: xs).length
  | x :: xs, y :: ys =>
      min (levRec xs (y :: ys) + 1)
        (min (levRec (x :: xs) ys + 1) (levRec xs ys + levCost x y))
termination_by a b => a.length + b.length

/-- Inner loop of `levenshteinDistance` (fuzzy.ts lines 582-597):
walks the row string `xs`, carrying the value to the left (`left`) and
the suffix of the previous row starting at the diagonal cell.  Each
step takes `min(prevRow[i] + 1, currRow[i-1] + 1, prevRow[i-1] + cost)`. -/
def levRowAux (c : Char) : List Char → ℕ → List ℕ → List ℕ
  | [], _, _ => []
  | x :: xs, left, p0 :: p1 :: ps =>
      let v := min (p1 + 1) (min (left + 1) (p0 + levCost x c))
      v :: levRowAux c xs v (p1 :: ps)
  | _ :: _, _, _ => []

/-- One outer-loop iteration of the DP: `currRow[0] = j` followed by the
inner loop over the row string. -/
def levNextRow (a : List Char) (c : Char) (j : ℕ) (prev : List ℕ) : List ℕ :=
  j :: levRowAux c a j prev

/-- Outer loop of `levenshteinDistance`: fold the column string through
`levNextRow`, starting from row `[0, 1, ..., m]`. -/
def levRows (a : List Char) : List Char → ℕ → List ℕ → List ℕ
  | [], _, prev => prev
  | c :: bs, j, prev => levRows a bs (j + 1) (levNextRow a c j prev)

/-- The two-row dynamic program of fuzzy.ts on character lists, after
the shorter-string swap: early returns for an empty side, otherwise run
the row loop and read the final cell `prevRow[m]`. -/
def levImpl (a b : List Char) : ℕ :=
  if a.length = 0 then b.length
  else if b.length = 0 then a.length
  else (levRows a b 1 (List.range (a.length + 1))).getLastD 0

/-- Embeds `levenshteinDistance` (fuzzy.ts): ensure the row string is the
shorter one, then run the two-row DP. -/
def levenshteinDistance (a b : String) : ℕ :=
  if a.length > b.length then levImpl b.data a.data else levImpl a.data b.data

/-- Embeds `similarity` (fuzzy.ts): 1 for equal strings, 1 for two empty
strings, 0 when exactly one is empty, otherwise
`1 - distance / max(len a, len b)`. -/
def similarity (a b : String) : ℚ :=
  if a = b then 1
  else if a.length = 0 ∧ b.length = 0 then 1
  else if a.length = 0 ∨ b.length = 0 then 0
  else 1 - (levenshteinDistance a b : ℚ) / (max a.length b.length : ℕ)

/-- Result record of `findBestMatch` (fuzzy.ts). -/
structure BestMatch where
  matched : Option String
  score : ℚ
  index : ℤ
  deriving DecidableEq, Repr

/-- Loop body of `findBestMatch`: a candidate replaces the running best
only when its score strictly exceeds the best score so far. -/
def bestMatchStep (input : String) (st : BestMatch) (p : ℕ × String) : BestMatch :=
  let score := similarity input p.2
  if st.score < score then ⟨some p.2, score, (p.1 : ℤ)⟩ else st

/-- Embeds `findBestMatch` (fuzzy.ts): sentinel for an empty candidate list,
otherwise a linear scan starting from `{null, 0, -1}`. -/
def findBestMatch (input : String) (candidates : List String) : BestMatch :=
  if candidates = [] then ⟨none, 0, -1⟩
  else candidates.enum.foldl (bestMatchStep input) ⟨none, 0, -1⟩

/-! ## Text normalizer (parser.ts) -/

/-- Modelled: JS `String.prototype.normalize("NFKC")`.  NFKC fixes every
ASCII string, and every concrete string in the claims is ASCII, so it is
modelled as the identity. -/
def nfkc (s : String) : String := s

/-- One step of whitespace collapsing (`replace(/\s+/g, " ")`): the flag
records whether the previous character was whitespace (true initially,
which also trims the left end). -/
def collapseWsAux : Bool → List Char → List Char
  | _, [] => []
  | prevWs, c :: cs =>
      if c.isWhitespace then
        if prevWs then collapseWsAux true cs else ' ' :: collapseWsAux true cs
      else c :: collapseWsAux false cs

/-- Embeds `replace(/\s+/g, " ").trim()` on a character list: collapse runs of
whitespace to single spaces, dropping them at either end. -/
def normalizeSpace (l : List Char) : List Char :=
  ((collapseWsAux true l).reverse.dropWhile (· = ' ')).reverse

/-- Embeds `normalizeText` (parser.ts): NFKC, optional lowercasing, removal of
every occurrence of each character of `eliminateChars` (each treated
literally), whitespace collapse and trim.  Case folding is JS
`toLowerCase`, modelled by `Char.toLower` (they agree on ASCII). -/
def normalizeText (text : String) (eliminateChars : String) (lowercase : Bool) : String :=
  let l := (nfkc text).data
  let l := if lowercase then l.map Char.toLower else l
  let l := eliminateChars.data.foldl (fun acc c => acc.filter (fun d => d != c)) l
  String.mk (normalizeSpace l)

/-! ## Data model (types.ts) -/

/-- The `correct` field of a card: absent, a single index, or an index
list (TS `correct?: number | number[]`). -/
inductive CorrectField where
  | absent : CorrectField
  | index (n : ℤ) : CorrectField
  | indices (l : List ℤ) : CorrectField
  deriving DecidableEq, Repr

/-- Card (types.ts).  `kind` is kept as a raw string because the grader
dispatches on it with a default branch for unknown kinds.  Scheduling
numbers are rationals (JS numbers); timestamps are in milliseconds. -/
structure Card where
  id : String
  deckId : String
  kind : String
  front : String
  back : String
  options : Option (List String)
  correct : CorrectField
  canonicalAnswers : Option (List String)
  acceptedRegex : Option String
  tags : Option (List String)
  due : ℚ
  intervalDays : ℚ
  ease : ℚ
  repetitions : ℕ
  lapses : ℕ
  createdAt : ℚ
  updatedAt : ℚ
  deriving DecidableEq, Repr

/-- A user answer: TS `string | number | number[]`. -/
inductive Answer where
  | str (s : String) : Answer
  | num (n : ℤ) : Answer
  | nums (l : List ℤ) : Answer
  deriving DecidableEq, Repr

/-- Fuzzy-similarity cutoffs (types.ts `FuzzyThresholds`). -/
structure FuzzyThresholds where
  exact : ℚ
  high : ℚ
  medium : ℚ
  low : ℚ
  deriving DecidableEq, Repr

/-- The slice of Settings consumed by the grader. -/
structure GSettings where
  eliminateChars : String
  lowercaseNormalization : Bool
  fuzzyThresholds : FuzzyThresholds
  deriving DecidableEq, Repr

/-- The default `eliminateChars` string of DEFAULT_SETTINGS (types.ts):
period, comma, exclamation mark, question mark, the two parentheses, and
the two quote characters (spelled with code points 39 and 34). -/
def defaultEliminateChars : String :=
  String.mk ['.', ',', '!', '?', '(', ')', Char.ofNat 39, Char.ofNat 34]

/-- DEFAULT_SETTINGS (types.ts), grader slice. -/
def defaultSettings : GSettings :=
  { eliminateChars := defaultEliminateChars
    lowercaseNormalization := true
    fuzzyThresholds := { exact := 1, high := 19/20, medium := 17/20, low := 7/10 } }

/-! ## Answer grader (grading.ts) -/

/-- Embeds `gradeMcqSingle`: strict equality of the selected index with
`card.correct`; any shape mismatch compares unequal in JS and grades 0. -/
def gradeMcqSingle (card : Card) (ua : Answer) : ℕ :=
  match card.correct, ua with
  | CorrectField.index n, Answer.num m => if m = n then 3 else 0
  | _, _ => 0

/-- Embeds `gradeMcqMulti` on an index list: the guard for a missing or empty
correct list, then counts of true positives, false negatives and false
positives over the raw arrays (set membership is list membership), the
dead `total == 0` default, and the F1-like threshold mapping. -/
def gradeMcqMulti (correct : List ℤ) (selected : List ℤ) : ℕ :=
  if correct = [] then 0
  else
    let truePositives := (selected.filter (fun i => correct.contains i)).length
    let falseNegatives := (correct.filter (fun i => ! selected.contains i)).length
    let falsePositives := (selected.filter (fun i => ! correct.contains i)).length
    let total := truePositives + falsePositives + falseNegatives
    if total = 0 then 3
    else
      let score : ℚ := (truePositives : ℚ) /
        ((truePositives : ℚ) + (1/2) * ((falsePositives : ℚ) + (falseNegatives : ℚ)))
      if 9/10 ≤ score then 3
      else if 3/5 ≤ score then 2
      else if 1/5 ≤ score then 1
      else 0

/-- JS `String.prototype.trim` on a character list: drop whitespace
from both ends. -/
def jsTrim (l : List Char) : List Char :=
  ((l.dropWhile Char.isWhitespace).reverse.dropWhile Char.isWhitespace).reverse

/-- Embeds `isSingleTermAnswer` (grading.ts): nonempty after trimming and no
internal whitespace (`!/\s/.test(...)`). -/
def isSingleTermAnswer (answer : String) : Bool :=
  decide (0 < (jsTrim answer.data).length)
    && (jsTrim answer.data).all (fun c => ! c.isWhitespace)

/-- Embeds `isStrictDefinitionCard` (grading.ts): the front starts with
"definition:" after trim and lowercase, or some tag equals "term" after
lowercase. -/
def isStrictDefinitionCard (card : Card) : Bool :=
  ("definition:".data).isPrefixOf ((jsTrim card.front.data).map Char.toLower)
    || (card.tags.getD []).any (fun tag => tag.data.map Char.toLower == "term".data)

/-- The fall-through tail of `gradeText`: best fuzzy score over the
canonical answers, then the strict-definition override, the
single-term-vocabulary override, and the threshold mapping. -/
def gradeTextFuzzy (card : Card) (normalizedInput : String)
    (canonicalAnswers : List String) (s : GSettings) : ℕ :=
  let bestScore := canonicalAnswers.foldl
    (fun b answer => max b (similarity normalizedInput answer)) 0
  if isStrictDefinitionCard card then 0
  else if canonicalAnswers.all isSingleTermAnswer then
    if s.fuzzyThresholds.low ≤ bestScore then 1 else 0
  else if s.fuzzyThresholds.high ≤ bestScore then 3
  else if s.fuzzyThresholds.medium ≤ bestScore then 2
  else if s.fuzzyThresholds.low ≤ bestScore then 1
  else 0

/-- Embeds `gradeText` (grading.ts).  `rc` is the regular-expression compile
oracle: `rc r = none` models a pattern on which `new RegExp` throws, the
catch block of the source.  An empty `acceptedRegex` is falsy in JS and
skips the regex branch. -/
def gradeText (rc : String → Option (String → Bool)) (card : Card)
    (userAnswer : String) (s : GSettings) : ℕ :=
  let normalizedInput := normalizeText userAnswer s.eliminateChars s.lowercaseNormalization
  let canonicalAnswers := match card.canonicalAnswers with
    | some l => l
    | none => [normalizeText card.back s.eliminateChars s.lowercaseNormalization]
  if canonicalAnswers.contains normalizedInput then 3
  else
    match card.acceptedRegex with
    | some r =>
        if r = "" then gradeTextFuzzy card normalizedInput canonicalAnswers s
        else
          match rc r with
          | some test =>
              if test userAnswer || test normalizedInput then 3
              else gradeTextFuzzy card normalizedInput canonicalAnswers s
          | none => gradeTextFuzzy card normalizedInput canonicalAnswers s
    | none => gradeTextFuzzy card normalizedInput canonicalAnswers s

/-- Per-blank grade of `gradeCloze`: exact match scores 3, otherwise the
threshold mapping of the fuzzy score. -/
def clozeBlankGrade (expected actual : String) (s : GSettings) : ℕ :=
  let normalizedActual := normalizeText actual s.eliminateChars s.lowercaseNormalization
  if normalizedActual = expected then 3
  else
    let score := similarity normalizedActual expected
    if s.fuzzyThresholds.high ≤ score then 3
    else if s.fuzzyThresholds.medium ≤ score then 2
    else if s.fuzzyThresholds.low ≤ score then 1
    else 0

/-- Embeds `gradeCloze` (grading.ts): grade each blank against the matching
canonical answer (missing entries read as empty strings), average, and
round to the nearest whole grade. -/
def gradeCloze (card : Card) (userAnswers : List String) (s : GSettings) : ℕ :=
  let canonicalAnswers := card.canonicalAnswers.getD []
  if canonicalAnswers = [] ∨ userAnswers = [] then 0
  else
    let n := max canonicalAnswers.length userAnswers.length
    let grades := (List.range n).map
      (fun i => clozeBlankGrade (canonicalAnswers.getD i "") (userAnswers.getD i "") s)
    let avgGrade : ℚ := ((grades.foldl (· + ·) 0 : ℕ) : ℚ) / (grades.length : ℚ)
    if 5/2 ≤ avgGrade then 3
    else if 3/2 ≤ avgGrade then 2
    else if 1/2 ≤ avgGrade then 1
    else 0

/-- Embeds `gradeAnswer` (grading.ts): dispatch on the card kind, with `some 0`
for an unknown kind.  `none` models the JS TypeErrors reachable through
the union casts: an mcq-multi card whose `correct` is a nonzero single
number (both `new Set` calls throw on a number), an mcq-multi answer
that is a single number, and a text/audio/cloze answer that is not a
string (`normalize` and `split` are not functions of numbers).  An
mcq-multi string answer is iterated character-wise by `new Set`; no
character strictly equals a number, so it grades 0. -/
def gradeAnswer (rc : String → Option (String → Bool)) (card : Card)
    (ua : Answer) (s : GSettings) : Option ℕ :=
  if card.kind = "mcq-single" then some (gradeMcqSingle card ua)
  else if card.kind = "mcq-multi" then
    match card.correct with
    | CorrectField.absent => some 0
    | CorrectField.index n => if n = 0 then some 0 else none
    | CorrectField.indices l =>
        match ua with
        | Answer.nums sel => some (gradeMcqMulti l sel)
        | Answer.str _ => some (gradeMcqMulti l [])
        | Answer.num _ => none
  else if card.kind = "text" then
    match ua with
    | Answer.str t => some (gradeText rc card t s)
    | _ => none
  else if card.kind = "cloze" then
    match ua with
    | Answer.str t => some (gradeCloze card (t.splitOn "|") s)
    | _ => none
  else if card.kind = "audio" then
    match ua with
    | Answer.str t => some (gradeText rc card t s)
    | _ => none
  else some 0

/-- Shape consistency of a card and an answer with the data model of the
spec: an mcq-multi card carries an index list (or nothing) in `correct`
and receives an index-list answer; text, audio and cloze cards receive
string answers.  Outside this domain the union casts of the source make
behavior undefined (spec section 7a). -/
def WellShaped (card : Card) (ua : Answer) : Prop :=
  (card.kind = "mcq-multi" →
    (∃ l, ua = Answer.nums l) ∧ ∀ n, card.correct = CorrectField.index n → n = 0)
  ∧ ((card.kind = "text" ∨ card.kind = "audio" ∨ card.kind = "cloze") →
      ∃ t, ua = Answer.str t)

/-! ## Scheduler (scheduler.ts) -/

/-- MIN_EASE (scheduler.ts). -/
def minEase : ℚ := 13/10

/-- MAX_EASE (scheduler.ts). -/
def maxEase : ℚ := 7/2

/-- MS_PER_DAY (scheduler.ts). -/
def msPerDay : ℚ := 86400 * 1000

/-- MS_PER_MINUTE (scheduler.ts). -/
def msPerMinute : ℚ := 60 * 1000

/-- FAIL_INTERVAL_MINUTES (scheduler.ts). -/
def failIntervalMinutes : ℚ := 10

/-- JS `Math.round`: round half toward positive infinity. -/
def jsRound (x : ℚ) : ℤ := ⌊x + 1/2⌋

/-- INITIAL_INTERVALS (scheduler.ts).  The TS `Grade` type confines the
argument to 0-3; the final branch is unreachable there and exists only
for totality. -/
def initialIntervals (grade : ℕ) : ℚ :=
  if grade = 0 then 1 else if grade = 1 then 1 else if grade = 2 then 1
  else if grade = 3 then 4 else 1

/-- SECOND_INTERVALS (scheduler.ts), same convention. -/
def secondIntervals (grade : ℕ) : ℚ :=
  if grade = 0 then 1 else if grade = 1 then 3 else if grade = 2 then 6
  else if grade = 3 then 10 else 1

/-- Embeds `calculateInterval` (scheduler.ts): grade-dependent growth factor,
JS rounding, and the clamp to [1, 365]. -/
def calculateInterval (prevInterval ease : ℚ) (grade : ℕ) : ℚ :=
  let newInterval : ℤ :=
    if grade = 1 then jsRound (prevInterval * ease * (8/10))
    else if grade = 2 then jsRound (prevInterval * ease)
    else if grade = 3 then jsRound (prevInterval * ease * (13/10))
    else 1
  ((max 1 (min 365 newInterval) : ℤ) : ℚ)

/-- Embeds `calculateNewEase` (scheduler.ts): grade-dependent delta, clamped to
[MIN_EASE, MAX_EASE]. -/
def calculateNewEase (currentEase : ℚ) (grade : ℕ) : ℚ :=
  let delta : ℚ :=
    if grade = 0 then -(1/5)
    else if grade = 1 then -(3/20)
    else if grade = 2 then 0
    else if grade = 3 then 3/20
    else 0
  max minEase (min maxEase (currentEase + delta))

/-- Embeds `sm2Update` (scheduler.ts).  `now` is the injected clock
(`Date.now()` in the source).  Grade 0 resets progress and schedules a
10-minute relearn; a successful grade bumps repetitions, picks the
interval by review count, updates the ease, and schedules
`intervalDays` days out. -/
def sm2Update (card : Card) (grade : ℕ) (now : ℚ) : Card :=
  if grade = 0 then
    { card with
        updatedAt := now
        repetitions := 0
        intervalDays := 0
        ease := max minEase (card.ease - 1/5)
        lapses := card.lapses + 1
        due := now + failIntervalMinutes * msPerMinute }
  else
    let newIntervalDays : ℚ :=
      if card.repetitions = 0 then initialIntervals grade
      else if card.repetitions = 1 then secondIntervals grade
      else calculateInterval card.intervalDays card.ease grade
    { card with
        updatedAt := now
        repetitions := card.repetitions + 1
        intervalDays := newIntervalDays
        ease := calculateNewEase card.ease grade
        due := now + newIntervalDays * msPerDay }

/-! ## Due-card selection (storage.ts, background/index.ts) -/

/-- The `getDueCards` comparator `a.due - b.due` as a relation:
`cmp a b ≤ 0`. -/
def dueLe (a b : Card) : Prop := a.due - b.due ≤ 0

instance : DecidableRel dueLe := fun a b => inferInstanceAs (Decidable (_ ≤ _))

/-- Embeds `getDueCards` (storage.ts): filter to cards due now, sort ascending
by due date (JS stable sort, modelled by insertion sort), truncate. -/
def getDueCards (cards : List Card) (now : ℚ) (limit : ℕ) : List Card :=
  ((cards.filter (fun c => decide (c.due ≤ now))).insertionSort dueLe).take limit

/-- The `sortCardsForReview` comparator (scheduler.ts): new cards first,
then most overdue first. -/
def reviewCmp (now : ℚ) (a b : Card) : ℚ :=
  if a.repetitions = 0 ∧ ¬ b.repetitions = 0 then -1
  else if ¬ a.repetitions = 0 ∧ b.repetitions = 0 then 1
  else (now - b.due) - (now - a.due)

/-- The comparator as a relation for the stable sort. -/
def reviewLe (now : ℚ) (a b : Card) : Prop := reviewCmp now a b ≤ 0

instance (now : ℚ) : DecidableRel (reviewLe now) :=
  fun a b => inferInstanceAs (Decidable (_ ≤ _))

/-- Embeds `sortCardsForReview` (scheduler.ts) via the stable sort. -/
def sortCardsForReview (now : ℚ) (cards : List Card) : List Card :=
  cards.insertionSort (reviewLe now)

/-- Embeds `getNextCardForDomain` (storage.ts): the domain does not
affect card selection; the first due card (or null) is returned. -/
def getNextCardForDomain (_domain : String) (cards : List Card) (now : ℚ) : Option Card :=
  (getDueCards cards now 1).head?

/-- The card-selection pipeline of `handleGetNextCard`
(background/index.ts lines 155-190), after the pause/disable guards:
take the due cards, order them for review, and return the first card
that is not snoozed.  The deck-name decoration of the returned card is
omitted; it does not change any field used here.  Note: the pipeline
never consults `settings.activeDeckId`. -/
def handleGetNextCard (cards : List Card) (snoozedIds : List String) (now : ℚ) : Option Card :=
  let dueCards := getDueCards cards now 100
  if dueCards = [] then none
  else (sortCardsForReview now dueCards).find? (fun c => ! snoozedIds.contains c.id)

/-! ## Concrete instances used by the claims -/

/-- A blank card; concrete scenarios override the relevant fields. -/
def baseCard : Card :=
  { id := "c0", deckId := "d0", kind := "text", front := "", back := ""
    options := none, correct := CorrectField.absent, canonicalAnswers := none
    acceptedRegex := none, tags := none
    due := 0, intervalDays := 0, ease := 5/2, repetitions := 0, lapses := 0
    createdAt := 0, updatedAt := 0 }

/-- Scenario E card: a text card whose canonical answer is "paris", with
no strict-definition prefix, no term tag and no accepted regex. -/
def scenarioECard : Card :=
  { baseCard with
      id := "e1", kind := "text", front := "Capital of France"
      back := "Paris", canonicalAnswers := some ["paris"] }

/-- A compile oracle for cards without a regex; never consulted. -/
def noRegex : String → Option (String → Bool) := fun _ => none

/-- C1 failing input, card in deck B: never reviewed, due at time 0. -/
def cardB : Card :=
  { baseCard with id := "b1", deckId := "B", due := 0, repetitions := 0 }

/-- C1 failing input, card in the active deck A: reviewed once, due at
time 0. -/
def cardA : Card :=
  { baseCard with id := "a1", deckId := "A", due := 0, repetitions := 1 }

/-- Scenario C card: ease 2.5, interval 6 days, 2 repetitions. -/
def scenarioCCard : Card :=
  { baseCard with id := "sc", intervalDays := 6, ease := 5/2, repetitions := 2 }

/-- An mcq-multi card whose correct-index list is empty (C2). -/
def mcqMultiEmptyCard : Card :=
  { baseCard with id := "m0", kind := "mcq-multi", correct := CorrectField.indices [] }

/-! ## Edit scripts

`Edits a b n` holds when `b` is obtained from `a` by an edit script of
`n` insert/delete/substitute operations.  The edit distance is the least
such `n`; this characterization carries the symmetry and
triangle-inequality proofs. -/

/-- An edit script of cost `n` turning the first list into the second. -/
inductive Edits : List Char → List Char → ℕ → Prop where
  | nil : Edits [] [] 0
  | copy (x : Char) {xs ys : List Char} {n : ℕ} :
      Edits xs ys n → Edits (x :: xs) (x :: ys) n
  | subst (x y : Char) {xs ys : List Char} {n : ℕ} :
      Edits xs ys n → Edits (x :: xs) (y :: ys) (n + 1)
  | ins (y : Char) {xs ys : List Char} {n : ℕ} :
      Edits xs ys n → Edits xs (y :: ys) (n + 1)
  | del (x : Char) {xs ys : List Char} {n : ℕ} :
      Edits xs ys n → Edits (x :: xs) ys (n + 1)

/-! # Theorems -/

/-! ## The recurrence: equations and elementary bounds -/

theorem levRec_nil (ys : List Char) : levRec [] ys = ys.length := by
  simp [levRec]

theorem levRec_nil_right (xs : List Char) : levRec xs [] = xs.length := by
  cases xs <;> simp [levRec]

theorem levRec_cons_cons (x y : Char) (xs ys : List Char) :
    levRec (x :: xs) (y :: ys) =
      min (levRec xs (y :: ys) + 1)
        (min (levRec (x :: xs) ys + 1) (levRec xs ys + levCost x y)) := by
  simp [levRec]

theorem levCost_le_one (x y : Char) : levCost x y ≤ 1 := by
  unfold levCost; split <;> omega

theorem levRec_le_ins (xs : List Char) (y : Char) (ys : List Char) :
    levRec xs (y :: ys) ≤ levRec xs ys + 1 := by
  cases xs with
  | nil => simp [levRec_nil]
  | cons x xs =>
      rw [levRec_cons_cons]
      exact le_trans (min_le_right _ _) (min_le_left _ _)

theorem levRec_le_del (x : Char) (xs ys : List Char) :
    levRec (x :: xs) ys ≤ levRec xs ys + 1 := by
  cases ys with
  | nil => simp [levRec_nil_right, levRec_nil]
  | cons y ys =>
      rw [levRec_cons_cons]
      exact min_le_left _ _

/-! ## Edit scripts bound the recurrence and realize it -/

theorem edits_nil_left (ys : List Char) : Edits [] ys ys.length := by
  induction ys with
  | nil => exact Edits.nil
  | cons y ys ih => exact Edits.ins y ih

theorem edits_nil_right (xs : List Char) : Edits xs [] xs.length := by
  induction xs with
  | nil => exact Edits.nil
  | cons x xs ih => exact Edits.del x ih

theorem edits_le {a b : List Char} {n : ℕ} (h : Edits a b n) : levRec a b ≤ n := by
  induction h with
  | nil => simp [levRec_nil]
  | copy x h ih =>
      rw [levRec_cons_cons]
      refine le_trans (le_trans (min_le_right _ _) (min_le_right _ _)) ?_
      simp only [levCost, if_pos rfl, Nat.add_zero]
      exact ih
  | subst x y h ih =>
      rw [levRec_cons_cons]
      refine le_trans (le_trans (min_le_right _ _) (min_le_right _ _)) ?_
      have := levCost_le_one x y
      omega
  | ins y h ih =>
      refine le_trans (levRec_le_ins _ _ _) ?_
      omega
  | del x h ih =>
      refine le_trans (levRec_le_del _ _ _) ?_
      omega

theorem edits_levRec : ∀ a b : List Char, Edits a b (levRec a b) := by
  have H : ∀ N a b, a.length + b.length ≤ N → Edits a b (levRec a b) := by
    intro N
    induction N with
    | zero =>
        intro a b h
        cases a with
        | nil =>
            cases b with
            | nil => rw [levRec_nil]; exact Edits.nil
            | cons y ys => simp at h
        | cons x xs => simp at h
    | succ N ih =>
        intro a b h
        cases a with
        | nil => rw [levRec_nil]; exact edits_nil_left b
        | cons x xs =>
            cases b with
            | nil => rw [levRec_nil_right]; exact edits_nil_right _
            | cons y ys =>
                have hx : xs.length + (y :: ys).length ≤ N := by
                  simp only [List.length_cons] at h ⊢; omega
                have hy : (x :: xs).length + ys.length ≤ N := by
                  simp only [List.length_cons] at h ⊢; omega
                have hxy : xs.length + ys.length ≤ N := by
                  simp only [List.length_cons] at h ⊢; omega
                rw [levRec_cons_cons]
                rcases min_cases (levRec xs (y :: ys) + 1)
                    (min (levRec (x :: xs) ys + 1) (levRec xs ys + levCost x y)) with
                  ⟨h1, _⟩ | ⟨h1, _⟩
                · rw [h1]; exact Edits.del x (ih xs (y :: ys) hx)
                · rw [h1]
                  rcases min_cases (levRec (x :: xs) ys + 1)
                      (levRec xs ys + levCost x y) with ⟨h2, _⟩ | ⟨h2, _⟩
                  · rw [h2]; exact Edits.ins y (ih (x :: xs) ys hy)
                  · rw [h2]
                    by_cases hc : x = y
                    · subst hc
                      simp only [levCost, if_pos rfl, Nat.add_zero]
                      exact Edits.copy x (ih xs ys hxy)
                    · simp only [levCost, if_neg hc]
                      exact Edits.subst x y (ih xs ys hxy)
  intro a b
  exact H (a.length + b.length) a b le_rfl

/-! ## Flipping, reversal, composition -/

theorem edits_flip {a b : List Char} {n : ℕ} (h : Edits a b n) : Edits b a n := by
  induction h with
  | nil => exact Edits.nil
  | copy x h ih => exact Edits.copy x ih
  | subst x y h ih => exact Edits.subst y x ih
  | ins y h ih => exact Edits.del y ih
  | del x h ih => exact Edits.ins x ih

theorem edits_snoc_copy {a b : List Char} {n : ℕ} (h : Edits a b n) (z : Char) :
    Edits (a ++ [z]) (b ++ [z]) n := by
  induction h with
  | nil => exact Edits.copy z Edits.nil
  | copy x h ih => simp only [List.cons_append]; exact Edits.copy x ih
  | subst x y h ih => simp only [List.cons_append]; exact Edits.subst x y ih
  | ins y h ih => simp only [List.cons_append]; exact Edits.ins y ih
  | del x h ih => simp only [List.cons_append]; exact Edits.del x ih

theorem edits_snoc_subst {a b : List Char} {n : ℕ} (h : Edits a b n) (z w : Char) :
    Edits (a ++ [z]) (b ++ [w]) (n + 1) := by
  induction h with
  | nil => exact Edits.subst z w Edits.nil
  | copy x h ih => simp only [List.cons_append]; exact Edits.copy x ih
  | subst x y h ih => simp only [List.cons_append]; exact Edits.subst x y ih
  | ins y h ih => simp only [List.cons_append]; exact Edits.ins y ih
  | del x h ih => simp only [List.cons_append]; exact Edits.del x ih

theorem edits_snoc_ins {a b : List Char} {n : ℕ} (h : Edits a b n) (w : Char) :
    Edits a (b ++ [w]) (n + 1) := by
  induction h with
  | nil => exact Edits.ins w Edits.nil
  | copy x h ih => simp only [List.cons_append]; exact Edits.copy x ih
  | subst x y h ih => simp only [List.cons_append]; exact Edits.subst x y ih
  | ins y h ih => simp only [List.cons_append]; exact Edits.ins y ih
  | del x h ih => exact Edits.del x ih

theorem edits_snoc_del {a b : List Char} {n : ℕ} (h : Edits a b n) (z : Char) :
    Edits (a ++ [z]) b (n + 1) :=
  edits_flip (edits_snoc_ins (edits_flip h) z)

theorem edits_reverse {a b : List Char} {n : ℕ} (h : Edits a b n) :
    Edits a.reverse b.reverse n := by
  induction h with
  | nil => exact Edits.nil
  | copy x h ih => simp only [List.reverse_cons]; exact edits_snoc_copy ih x
  | subst x y h ih => simp only [List.reverse_cons]; exact edits_snoc_subst ih x y
  | ins y h ih => simp only [List.reverse_cons]; exact edits_snoc_ins ih y
  | del x h ih => simp only [List.reverse_cons]; exact edits_snoc_del ih x

theorem levRec_symm (a b : List Char) : levRec a b = levRec b a :=
  le_antisymm (edits_le (edits_flip (edits_levRec b a)))
    (edits_le (edits_flip (edits_levRec a b)))

theorem levRec_reverse (a b : List Char) :
    levRec a.reverse b.reverse = levRec a b := by
  refine le_antisymm (edits_le (edits_reverse (edits_levRec a b))) ?_
  have h := edits_reverse (edits_levRec a.reverse b.reverse)
  simp only [List.reverse_reverse] at h
  exact edits_le h

theorem edits_drop {a b : List Char} {m : ℕ} (h : Edits a b m) :
    ∀ y ys, b = y :: ys → ∃ k, k ≤ m + 1 ∧ Edits a ys k := by
  induction h with
  | nil => intro y ys h; exact List.noConfusion h
  | copy x h ih =>
      intro y ys hb
      injection hb with h1 h2
      subst h2
      exact ⟨_, by omega, Edits.del x h⟩
  | subst x y2 h ih =>
      intro y ys hb
      injection hb with h1 h2
      subst h2
      exact ⟨_, by omega, Edits.del x h⟩
  | ins y2 h ih =>
      intro y ys hb
      injection hb with h1 h2
      subst h2
      exact ⟨_, by omega, h⟩
  | del x h ih =>
      intro y ys hb
      subst hb
      obtain ⟨k, hk, D⟩ := ih y ys rfl
      exact ⟨k + 1, by omega, Edits.del x D⟩

theorem edits_compose :
    ∀ (N : ℕ) (a b c : List Char) (m n : ℕ),
      a.length + b.length + c.length ≤ N →
      Edits a b m → Edits b c n → ∃ k, k ≤ m + n ∧ Edits a c k := by
  intro N
  induction N with
  | zero =>
      intro a b c m n hlen h1 h2
      have ha : a = [] := by cases a with
        | nil => rfl
        | cons x xs => simp at hlen
      have hb : b = [] := by cases b with
        | nil => rfl
        | cons x xs => simp at hlen
      have hc : c = [] := by cases c with
        | nil => rfl
        | cons x xs => simp at hlen
      subst ha; subst hb; subst hc
      cases h1
      cases h2
      exact ⟨0, by omega, Edits.nil⟩
  | succ N ih =>
      intro a b c m n hlen h1 h2
      cases h2 with
      | nil => exact ⟨m, by omega, h1⟩
      | ins z h2' =>
          obtain ⟨k, hk, D⟩ := ih a b _ m _
            (by simp only [List.length_cons] at hlen ⊢; omega) h1 h2'
          exact ⟨k + 1, by omega, Edits.ins z D⟩
      | del y h2' =>
          obtain ⟨k1, hk1, D1⟩ := edits_drop h1 y _ rfl
          obtain ⟨k, hk, D⟩ := ih a _ c k1 _
            (by simp only [List.length_cons] at hlen ⊢; omega) D1 h2'
          exact ⟨k, by omega, D⟩
      | subst y z h2' =>
          cases h1 with
          | copy x h1' =>
              obtain ⟨k, hk, D⟩ := ih _ _ _ _ _
                (by simp only [List.length_cons] at hlen ⊢; omega) h1' h2'
              exact ⟨k + 1, by omega, Edits.subst y z D⟩
          | subst x y2 h1' =>
              obtain ⟨k, hk, D⟩ := ih _ _ _ _ _
                (by simp only [List.length_cons] at hlen ⊢; omega) h1' h2'
              exact ⟨k + 1, by omega, Edits.subst x z D⟩
          | ins y2 h1' =>
              obtain ⟨k, hk, D⟩ := ih _ _ _ _ _
                (by simp only [List.length_cons] at hlen ⊢; omega) h1' h2'
              exact ⟨k + 1, by omega, Edits.ins z D⟩
          | del x h1' =>
              obtain ⟨k, hk, D⟩ := ih _ _ _ _ _
                (by simp only [List.length_cons] at hlen ⊢; omega) h1'
                (Edits.subst y z h2')
              exact ⟨k + 1, by omega, Edits.del x D⟩
      | copy y h2' =>
          cases h1 with
          | copy x h1' =>
              obtain ⟨k, hk, D⟩ := ih _ _ _ _ _
                (by simp only [List.length_cons] at hlen ⊢; omega) h1' h2'
              exact ⟨k, by omega, Edits.copy _ D⟩
          | subst x y2 h1' =>
              obtain ⟨k, hk, D⟩ := ih _ _ _ _ _
                (by simp only [List.length_cons] at hlen ⊢; omega) h1' h2'
              exact ⟨k + 1, by omega, Edits.subst x y D⟩
          | ins y2 h1' =>
              obtain ⟨k, hk, D⟩ := ih _ _ _ _ _
                (by simp only [List.length_cons] at hlen ⊢; omega) h1' h2'
              exact ⟨k + 1, by omega, Edits.ins y D⟩
          | del x h1' =>
              obtain ⟨k, hk, D⟩ := ih _ _ _ _ _
                (by simp only [List.length_cons] at hlen ⊢; omega) h1' (Edits.copy y h2')
              exact ⟨k + 1, by omega, Edits.del x D⟩

theorem levRec_triangle (a b c : List Char) :
    levRec a c ≤ levRec a b + levRec b c := by
  obtain ⟨k, hk, D⟩ := edits_compose (a.length + b.length + c.length) a b c _ _
    le_rfl (edits_levRec a b) (edits_levRec b c)
  exact le_trans (edits_le D) hk

theorem levRec_le_max : ∀ a b : List Char, levRec a b ≤ max a.length b.length := by
  intro a
  induction a with
  | nil => intro b; rw [levRec_nil]; exact le_max_right _ _
  | cons x xs ih =>
      intro b
      cases b with
      | nil => rw [levRec_nil_right]; exact le_max_left _ _
      | cons y ys =>
          rw [levRec_cons_cons]
          refine le_trans (le_trans (min_le_right _ _) (min_le_right _ _)) ?_
          have h1 := ih ys
          have h2 := levCost_le_one x y
          simp only [List.length_cons]
          omega

theorem levRec_self (a : List Char) : levRec a a = 0 := by
  induction a with
  | nil => simp [levRec_nil]
  | cons x xs ih =>
      rw [levRec_cons_cons]
      have h : levRec xs xs + levCost x x = 0 := by simp [levCost, ih]
      omega

/-! ## The two-row DP computes the recurrence

The row invariant: after consuming the column prefix `cs`, the row holds
`levRec t cs` for every prefix `t` of the row string, in order. -/

theorem levRec_snoc (u w : List Char) (x y : Char) :
    levRec (u ++ [x]) (w ++ [y]) =
      min (levRec (u ++ [x]) w + 1)
        (min (levRec u (w ++ [y]) + 1) (levRec u w + levCost x y)) := by
  have e1 : (u ++ [x]).reverse = x :: u.reverse := by simp
  have e2 : (w ++ [y]).reverse = y :: w.reverse := by simp
  have h0 : levRec (u ++ [x]) (w ++ [y]) = levRec (x :: u.reverse) (y :: w.reverse) := by
    rw [← levRec_reverse (u ++ [x]) (w ++ [y]), e1, e2]
  have h1 : levRec u.reverse (y :: w.reverse) = levRec u (w ++ [y]) := by
    rw [← e2, levRec_reverse]
  have h2 : levRec (x :: u.reverse) w.reverse = levRec (u ++ [x]) w := by
    rw [← e1, levRec_reverse]
  have h3 : levRec u.reverse w.reverse = levRec u w := levRec_reverse u w
  rw [h0, levRec_cons_cons, h1, h2, h3, min_left_comm]

theorem inits_head (l : List Char) : l.inits = [] :: l.inits.tail := by
  cases l with
  | nil => rfl
  | cons x xs => rw [List.inits_cons]; rfl

theorem levRowAux_correct (c : Char) (cs : List Char) :
    ∀ (xs u : List Char),
      levRowAux c xs (levRec u (cs ++ [c]))
          (xs.inits.map (fun t => levRec (u ++ t) cs))
        = (xs.inits.tail).map (fun t => levRec (u ++ t) (cs ++ [c])) := by
  intro xs
  induction xs with
  | nil => intro u; rfl
  | cons x xs ih =>
      intro u
      rw [List.inits_cons]
      simp only [List.map_cons, List.map_map, List.tail_cons, List.append_nil]
      have hprev :
          (xs.inits).map ((fun t => levRec (u ++ t) cs) ∘ (fun t => x :: t))
            = (xs.inits).map (fun t => levRec ((u ++ [x]) ++ t) cs) := by
        refine List.map_congr_left ?_
        intro t ht
        simp [Function.comp]
      rw [hprev]
      have hexp : (xs.inits).map (fun t => levRec ((u ++ [x]) ++ t) cs)
          = levRec (u ++ [x]) cs
            :: (xs.inits.tail).map (fun t => levRec ((u ++ [x]) ++ t) cs) := by
        conv_lhs => rw [inits_head xs]
        simp
      rw [hexp]
      show levRowAux c (x :: xs) (levRec u (cs ++ [c]))
          (levRec u cs :: levRec (u ++ [x]) cs
            :: (xs.inits.tail).map (fun t => levRec ((u ++ [x]) ++ t) cs))
        = _
      rw [levRowAux]
      have hv :
          min (levRec (u ++ [x]) cs + 1)
            (min (levRec u (cs ++ [c]) + 1) (levRec u cs + levCost x c))
          = levRec (u ++ [x]) (cs ++ [c]) := (levRec_snoc u cs x c).symm
      rw [hv]
      have hre : levRec (u ++ [x]) cs :: (xs.inits.tail).map (fun t => levRec ((u ++ [x]) ++ t) cs)
          = (xs.inits).map (fun t => levRec ((u ++ [x]) ++ t) cs) := by
        conv_rhs => rw [inits_head xs]
        simp
      rw [hre, ih (u ++ [x])]
      have hfin :
          (xs.inits.tail).map (fun t => levRec ((u ++ [x]) ++ t) (cs ++ [c]))
            = (xs.inits.tail).map ((fun t => levRec (u ++ t) (cs ++ [c])) ∘ (fun t => x :: t)) := by
        refine List.map_congr_left ?_
        intro t ht
        simp [Function.comp]
      rw [hfin]
      conv_rhs => rw [inits_head xs]
      simp [Function.comp]

theorem levNextRow_correct (a cs : List Char) (c : Char) :
    levNextRow a c (cs.length + 1) (a.inits.map (fun t => levRec t cs))
      = a.inits.map (fun t => levRec t (cs ++ [c])) := by
  unfold levNextRow
  have hj : cs.length + 1 = levRec [] (cs ++ [c]) := by
    rw [levRec_nil]; simp
  have harg : a.inits.map (fun t => levRec t cs)
      = a.inits.map (fun t => levRec ([] ++ t) cs) := by simp
  rw [hj, harg, levRowAux_correct c cs a []]
  conv_rhs => rw [inits_head a]
  simp

theorem levRows_correct (a : List Char) :
    ∀ (bs cs : List Char),
      levRows a bs (cs.length + 1) (a.inits.map (fun t => levRec t cs))
        = a.inits.map (fun t => levRec t (cs ++ bs)) := by
  intro bs
  induction bs with
  | nil => intro cs; simp [levRows]
  | cons c bs ih =>
      intro cs
      rw [levRows, levNextRow_correct a cs c]
      have h1 : cs.length + 1 + 1 = (cs ++ [c]).length + 1 := by simp
      have h2 : cs ++ c :: bs = (cs ++ [c]) ++ bs := by simp
      rw [h1, h2, ih (cs ++ [c])]

theorem inits_map_length : ∀ a : List Char, a.inits.map List.length = List.range (a.length + 1) := by
  intro a
  induction a with
  | nil => rfl
  | cons x xs ih =>
      rw [List.inits_cons, List.range_succ_eq_map]
      simp only [List.map_cons, List.map_map, List.length_nil, List.length_cons]
      congr 1
      · rw [← ih, List.map_map]
        refine List.map_congr_left ?_
        intro t ht
        simp [Function.comp, Nat.succ_eq_add_one]

theorem inits_map_getLastD :
    ∀ (a : List Char) (f : List Char → ℕ) (d : ℕ), (a.inits.map f).getLastD d = f a := by
  intro a
  induction a with
  | nil => intro f d; rfl
  | cons x xs ih =>
      intro f d
      rw [List.inits_cons]
      simp only [List.map_cons, List.getLastD_cons, List.map_map]
      exact ih _ _

theorem levImpl_eq_levRec (a b : List Char) : levImpl a b = levRec a b := by
  unfold levImpl
  by_cases ha : a.length = 0
  · rw [if_pos ha, List.length_eq_zero.mp ha, levRec_nil]
  · rw [if_neg ha]
    by_cases hb : b.length = 0
    · rw [if_pos hb, List.length_eq_zero.mp hb, levRec_nil_right]
    · rw [if_neg hb]
      have hinit : List.range (a.length + 1) = a.inits.map (fun t => levRec t []) := by
        rw [← inits_map_length a]
        refine (List.map_congr_left ?_).symm
        intro t ht
        exact levRec_nil_right t
      have h0 : (1 : ℕ) = List.length ([] : List Char) + 1 := rfl
      rw [hinit, h0, levRows_correct a b []]
      simp only [List.nil_append]
      exact inits_map_getLastD a _ 0

theorem levenshteinDistance_eq (a b : String) :
    levenshteinDistance a b = levRec a.data b.data := by
  unfold levenshteinDistance
  split
  · rw [levImpl_eq_levRec, levRec_symm]
  · exact levImpl_eq_levRec a.data b.data

/-! ## Similarity: helper lemmas -/

theorem string_length_eq_zero {s : String} : s.length = 0 ↔ s = "" := by
  constructor
  · intro h
    apply String.ext
    exact List.length_eq_zero.mp h
  · intro h
    subst h
    rfl

theorem levenshteinDistance_le_max (a b : String) :
    levenshteinDistance a b ≤ max a.length b.length := by
  rw [levenshteinDistance_eq]
  exact levRec_le_max a.data b.data

theorem levenshteinDistance_self (a : String) : levenshteinDistance a a = 0 := by
  rw [levenshteinDistance_eq]
  exact levRec_self a.data

theorem levenshteinDistance_symm (a b : String) :
    levenshteinDistance a b = levenshteinDistance b a := by
  rw [levenshteinDistance_eq, levenshteinDistance_eq]
  exact levRec_symm a.data b.data

theorem similarity_formula (a b : String) (h : a ≠ "" ∨ b ≠ "") :
    similarity a b = 1 - (levenshteinDistance a b : ℚ) / (max a.length b.length : ℕ) := by
  unfold similarity
  by_cases hab : a = b
  · subst hab
    rw [if_pos rfl, levenshteinDistance_self]
    simp
  · rw [if_neg hab]
    by_cases h0 : a.length = 0 ∧ b.length = 0
    · exfalso
      exact hab (string_length_eq_zero.mp h0.1 ▸ (string_length_eq_zero.mp h0.2).symm ▸ rfl)
    · rw [if_neg h0]
      by_cases h1 : a.length = 0 ∨ b.length = 0
      · rw [if_pos h1]
        rcases h1 with h1 | h1
        · have ha : a = "" := string_length_eq_zero.mp h1
          have hb : b ≠ "" := by
            intro hb
            exact h0 ⟨h1, string_length_eq_zero.mpr hb⟩
          subst ha
          have hd : levenshteinDistance "" b = b.length := by
            rw [levenshteinDistance_eq, levRec_nil]
            rfl
          have hbl : (0 : ℕ) < b.length :=
            Nat.pos_of_ne_zero (fun hz => hb (string_length_eq_zero.mp hz))
          rw [hd]
          have hm : max ("".length) b.length = b.length := by simp
          rw [hm, div_self (by exact_mod_cast hbl.ne')]
          ring
        · have hb : b = "" := string_length_eq_zero.mp h1
          have ha : a ≠ "" := by
            intro ha
            exact h0 ⟨string_length_eq_zero.mpr ha, h1⟩
          subst hb
          have hd : levenshteinDistance a "" = a.length := by
            rw [levenshteinDistance_eq, levRec_nil_right]
            rfl
          have hal : (0 : ℕ) < a.length :=
            Nat.pos_of_ne_zero (fun hz => ha (string_length_eq_zero.mp hz))
          rw [hd]
          have hm : max a.length ("".length) = a.length := by simp
          rw [hm, div_self (by exact_mod_cast hal.ne')]
          ring
      · rw [if_neg h1]

theorem similarity_self (a : String) : similarity a a = 1 := by
  simp [similarity]

theorem similarity_comm (a b : String) : similarity a b = similarity b a := by
  by_cases h : a = "" ∧ b = ""
  · rw [h.1, h.2]
  · have h1 : a ≠ "" ∨ b ≠ "" := by tauto
    have h2 : b ≠ "" ∨ a ≠ "" := h1.symm
    rw [similarity_formula a b h1, similarity_formula b a h2,
      levenshteinDistance_symm, max_comm]

theorem similarity_mem_unit (a b : String) : 0 ≤ similarity a b ∧ similarity a b ≤ 1 := by
  unfold similarity
  by_cases hab : a = b
  · rw [if_pos hab]; constructor <;> norm_num
  · rw [if_neg hab]
    by_cases h0 : a.length = 0 ∧ b.length = 0
    · rw [if_pos h0]; constructor <;> norm_num
    · rw [if_neg h0]
      by_cases h1 : a.length = 0 ∨ b.length = 0
      · rw [if_pos h1]; constructor <;> norm_num
      · rw [if_neg h1]
        push_neg at h1
        have hM : (0 : ℚ) < (max a.length b.length : ℕ) := by
          have : 0 < max a.length b.length :=
            lt_max_of_lt_left (Nat.pos_of_ne_zero h1.1)
          exact_mod_cast this
        have hd0 : (0 : ℚ) ≤ (levenshteinDistance a b : ℚ) := by positivity
        have hdM : (levenshteinDistance a b : ℚ) ≤ (max a.length b.length : ℕ) := by
          exact_mod_cast levenshteinDistance_le_max a b
        constructor
        · have : (levenshteinDistance a b : ℚ) / (max a.length b.length : ℕ) ≤ 1 :=
            (div_le_one hM).mpr hdM
          linarith
        · have : 0 ≤ (levenshteinDistance a b : ℚ) / (max a.length b.length : ℕ) :=
            div_nonneg hd0 hM.le
          linarith

/-! ## Claim C6 -/

/-- C6: the edit distance computed by the two-row dynamic-programming
Levenshtein implementation is symmetric and satisfies the triangle
inequality. -/
theorem C6_editDistance_metric :
    (∀ a b : String, levenshteinDistance a b = levenshteinDistance b a)
    ∧ (∀ a b c : String,
        levenshteinDistance a c ≤ levenshteinDistance a b + levenshteinDistance b c) := by
  constructor
  · intro a b
    exact levenshteinDistance_symm a b
  · intro a b c
    rw [levenshteinDistance_eq, levenshteinDistance_eq, levenshteinDistance_eq]
    exact levRec_triangle a.data b.data c.data

/-! ## Claim C7 -/

/-- C7: similarity equals `1 - distance / max(len a, len b)` whenever at
least one string is nonempty; `similarity a a = 1` for every string
(including two empty strings); similarity is symmetric; one empty and
one nonempty string score 0; and the result always lies in [0, 1]. -/
theorem C7_similarity_properties :
    (∀ a b : String, a ≠ "" ∨ b ≠ "" →
        similarity a b = 1 - (levenshteinDistance a b : ℚ) / (max a.length b.length : ℕ))
    ∧ (∀ a : String, similarity a a = 1)
    ∧ similarity "" "" = 1
    ∧ (∀ a b : String, similarity a b = similarity b a)
    ∧ (∀ b : String, b ≠ "" → similarity "" b = 0 ∧ similarity b "" = 0)
    ∧ (∀ a b : String, 0 ≤ similarity a b ∧ similarity a b ≤ 1) := by
  refine ⟨similarity_formula, similarity_self, similarity_self "", similarity_comm, ?_, similarity_mem_unit⟩
  intro b hb
  have hb0 : b.length ≠ 0 := fun hz => hb (string_length_eq_zero.mp hz)
  have h1 : similarity "" b = 0 := by
    unfold similarity
    rw [if_neg (fun h => hb h.symm), if_neg (by simp [hb0]),
      if_pos (show "".length = 0 ∨ b.length = 0 from Or.inl rfl)]
  exact ⟨h1, by rw [similarity_comm]; exact h1⟩

/-- C7 witness: the theorem applied at "" and "x". -/
theorem C7_similarity_properties_witness : similarity "" "x" = 0 :=
  (C7_similarity_properties.2.2.2.2.1 "x" (by decide)).1

/-! ## Scheduler: helper lemmas -/

theorem initialIntervals_ge_one (g : ℕ) : 1 ≤ initialIntervals g := by
  unfold initialIntervals
  split_ifs <;> norm_num

theorem secondIntervals_ge_one (g : ℕ) : 1 ≤ secondIntervals g := by
  unfold secondIntervals
  split_ifs <;> norm_num

theorem calculateInterval_bounds (p e : ℚ) (g : ℕ) :
    1 ≤ calculateInterval p e g ∧ calculateInterval p e g ≤ 365 := by
  simp only [calculateInterval]
  constructor
  · have h : (1 : ℤ) ≤ max 1 (min 365 (if g = 1 then jsRound (p * e * (8/10))
      else if g = 2 then jsRound (p * e) else if g = 3 then jsRound (p * e * (13/10)) else 1)) :=
      le_max_left _ _
    exact_mod_cast h
  · have h : max 1 (min 365 (if g = 1 then jsRound (p * e * (8/10))
      else if g = 2 then jsRound (p * e) else if g = 3 then jsRound (p * e * (13/10)) else 1))
        ≤ (365 : ℤ) := max_le (by norm_num) (min_le_left _ _)
    exact_mod_cast h

theorem calculateNewEase_bounds (e : ℚ) (g : ℕ) :
    minEase ≤ calculateNewEase e g ∧ calculateNewEase e g ≤ maxEase := by
  unfold calculateNewEase
  refine ⟨le_max_left _ _, max_le ?_ (min_le_left _ _)⟩
  norm_num [minEase, maxEase]

/-! ## Claim C3 -/

/-- C3: grade 0 resets repetitions to 0, decays the ease by 0.2 with
floor 1.3, increments the lapse count, zeroes the interval, and sets the
due time to exactly now + 10 minutes (600000 ms), for every card. -/
theorem C3_grade0_reschedule (card : Card) (now : ℚ) :
    (sm2Update card 0 now).repetitions = 0
    ∧ (sm2Update card 0 now).ease = max (13/10) (card.ease - 1/5)
    ∧ (sm2Update card 0 now).lapses = card.lapses + 1
    ∧ (sm2Update card 0 now).intervalDays = 0
    ∧ (sm2Update card 0 now).due = now + 600000 := by
  refine ⟨rfl, ?_, rfl, rfl, ?_⟩
  · simp [sm2Update, minEase]
  · simp [sm2Update, failIntervalMinutes, msPerMinute]
    norm_num

/-! ## Claim C4 -/

/-- C4: starting from an ease in [1.3, 3.5] and any grade 0-3, the
rescheduled ease stays in [1.3, 3.5]; for a successful grade with at
least two prior repetitions the new interval lies in [1, 365] days; and
the new due timestamp is never before now. -/
theorem C4_scheduler_clamps (card : Card) (grade : ℕ) (now : ℚ)
    (h1 : minEase ≤ card.ease) (h2 : card.ease ≤ maxEase) (h3 : grade ≤ 3) :
    (minEase ≤ (sm2Update card grade now).ease
      ∧ (sm2Update card grade now).ease ≤ maxEase)
    ∧ (1 ≤ grade → 2 ≤ card.repetitions →
        1 ≤ (sm2Update card grade now).intervalDays
          ∧ (sm2Update card grade now).intervalDays ≤ 365)
    ∧ now ≤ (sm2Update card grade now).due := by
  by_cases hg : grade = 0
  · subst hg
    have heq : sm2Update card 0 now =
        { card with
            updatedAt := now
            repetitions := 0
            intervalDays := 0
            ease := max minEase (card.ease - 1/5)
            lapses := card.lapses + 1
            due := now + failIntervalMinutes * msPerMinute } := by
      simp [sm2Update]
    refine ⟨⟨?_, ?_⟩, ?_, ?_⟩
    · rw [heq]
      exact le_max_left _ _
    · rw [heq]
      show max minEase (card.ease - 1/5) ≤ maxEase
      refine max_le (by norm_num [minEase, maxEase]) (by linarith)
    · intro hcon
      exact absurd hcon (by omega)
    · rw [heq]
      show now ≤ now + failIntervalMinutes * msPerMinute
      have : (0 : ℚ) ≤ failIntervalMinutes * msPerMinute := by
        norm_num [failIntervalMinutes, msPerMinute]
      linarith
  · have heq : sm2Update card grade now =
        { card with
            updatedAt := now
            repetitions := card.repetitions + 1
            intervalDays :=
              if card.repetitions = 0 then initialIntervals grade
              else if card.repetitions = 1 then secondIntervals grade
              else calculateInterval card.intervalDays card.ease grade
            ease := calculateNewEase card.ease grade
            due := now +
              (if card.repetitions = 0 then initialIntervals grade
                else if card.repetitions = 1 then secondIntervals grade
                else calculateInterval card.intervalDays card.ease grade) * msPerDay } := by
      simp only [sm2Update, if_neg hg]
    have hint : 1 ≤ (if card.repetitions = 0 then initialIntervals grade
        else if card.repetitions = 1 then secondIntervals grade
        else calculateInterval card.intervalDays card.ease grade) := by
      split_ifs
      · exact initialIntervals_ge_one grade
      · exact secondIntervals_ge_one grade
      · exact (calculateInterval_bounds card.intervalDays card.ease grade).1
    refine ⟨⟨?_, ?_⟩, ?_, ?_⟩
    · rw [heq]
      exact (calculateNewEase_bounds card.ease grade).1
    · rw [heq]
      exact (calculateNewEase_bounds card.ease grade).2
    · intro hg1 hrep
      have hr0 : ¬ card.repetitions = 0 := by omega
      have hr1 : ¬ card.repetitions = 1 := by omega
      rw [heq]
      simp only [if_neg hr0, if_neg hr1]
      exact calculateInterval_bounds card.intervalDays card.ease grade
    · rw [heq]
      have hms : (0 : ℚ) ≤ msPerDay := by norm_num [msPerDay]
      have : 0 ≤ (if card.repetitions = 0 then initialIntervals grade
          else if card.repetitions = 1 then secondIntervals grade
          else calculateInterval card.intervalDays card.ease grade) * msPerDay :=
        mul_nonneg (by linarith) hms
      show now ≤ now + _
      linarith

/-- C4 witness: the theorem applied to the scenario-C card (ease 2.5,
interval 6, repetitions 2) with grade 2 at time 0. -/
theorem C4_scheduler_clamps_witness :
    minEase ≤ (sm2Update scenarioCCard 2 0).ease
    ∧ 1 ≤ (sm2Update scenarioCCard 2 0).intervalDays
    ∧ (0 : ℚ) ≤ (sm2Update scenarioCCard 2 0).due := by
  have h := C4_scheduler_clamps scenarioCCard 2 0
    (by norm_num [scenarioCCard, baseCard, minEase])
    (by norm_num [scenarioCCard, baseCard, maxEase]) (by norm_num)
  exact ⟨h.1.1, (h.2.1 (by norm_num) (by norm_num [scenarioCCard, baseCard])).1, h.2.2⟩

/-! ## Claim C9 -/

/-- C9: rescheduling is a pure function of the card; the returned
snapshot keeps the front, back, options, correct, canonicalAnswers and
kind fields of the input unchanged, for every card and grade. -/
theorem C9_sm2Update_frame (card : Card) (grade : ℕ) (now : ℚ) :
    (sm2Update card grade now).front = card.front
    ∧ (sm2Update card grade now).back = card.back
    ∧ (sm2Update card grade now).options = card.options
    ∧ (sm2Update card grade now).correct = card.correct
    ∧ (sm2Update card grade now).canonicalAnswers = card.canonicalAnswers
    ∧ (sm2Update card grade now).kind = card.kind := by
  unfold sm2Update
  split_ifs <;> exact ⟨rfl, rfl, rfl, rfl, rfl, rfl⟩

/-! ## Claim C2: mcq-multi grading -/

theorem count_inter (s l : List ℤ) (hs : s.Nodup) :
    (s.filter (fun i => l.contains i)).length = (s.toFinset ∩ l.toFinset).card := by
  classical
  rw [← List.toFinset_card_of_nodup (hs.filter _), List.toFinset_filter]
  congr 1
  ext a
  simp [List.elem_iff, List.contains]

theorem count_sdiff (s l : List ℤ) (hs : s.Nodup) :
    (s.filter (fun i => ! l.contains i)).length = (s.toFinset \ l.toFinset).card := by
  classical
  rw [← List.toFinset_card_of_nodup (hs.filter _), List.toFinset_filter]
  congr 1
  ext a
  simp [List.elem_iff, List.contains]

/-- C2 counterexample: the claim defaults the score to 3 (grade 3) when
both the selected set and the correct set are empty; the code's guard on
an empty correct list fires first and returns grade 0. -/
theorem C2_mcqMulti_counterexample :
    gradeAnswer noRegex mcqMultiEmptyCard (Answer.nums []) defaultSettings = some 0
    ∧ gradeAnswer noRegex mcqMultiEmptyCard (Answer.nums []) defaultSettings ≠ some 3 := by
  constructor
  · rfl
  · decide

/-- C2 amended: for an mcq-multi card with a duplicate-free correct list
and a duplicate-free selection, the grade is the thresholded F1-like
score over the selection and correct sets — except that an empty
correct list grades 0 (even for an empty selection; the vacuous-match
branch of the source is unreachable). -/
theorem C2_mcqMulti_grading :
    (∀ (rc : String → Option (String → Bool)) (card : Card) (l sel : List ℤ) (s : GSettings),
        card.kind = "mcq-multi" → card.correct = CorrectField.indices l →
        gradeAnswer rc card (Answer.nums sel) s = some (gradeMcqMulti l sel))
    ∧ (∀ correct selected : List ℤ, correct.Nodup → selected.Nodup →
        gradeMcqMulti correct selected =
          if correct = [] then 0
          else
            let tp := (selected.toFinset ∩ correct.toFinset).card
            let fp := (selected.toFinset \ correct.toFinset).card
            let fn := (correct.toFinset \ selected.toFinset).card
            let score : ℚ := (tp : ℚ) / ((tp : ℚ) + (1/2) * ((fp : ℚ) + (fn : ℚ)))
            if 9/10 ≤ score then 3
            else if 3/5 ≤ score then 2
            else if 1/5 ≤ score then 1
            else 0) := by
  constructor
  · intro rc card l sel s hkind hcorr
    simp [gradeAnswer, hkind, hcorr]
  · intro correct selected hc hs
    by_cases hempty : correct = []
    · simp [gradeMcqMulti, hempty]
    · rw [if_neg hempty]
      unfold gradeMcqMulti
      rw [if_neg hempty]
      have htp := count_inter selected correct hs
      have hfp := count_sdiff selected correct hs
      have hfn := count_sdiff correct selected hc
      have htotal :
          (selected.filter (fun i => correct.contains i)).length
            + (selected.filter (fun i => ! correct.contains i)).length
            + (correct.filter (fun i => ! selected.contains i)).length ≠ 0 := by
        intro h0
        obtain ⟨c, hcmem⟩ := List.exists_mem_of_ne_nil correct hempty
        have hfn0 : (correct.filter (fun i => ! selected.contains i)).length = 0 := by omega
        have hforall := List.filter_eq_nil.mp (List.length_eq_zero.mp hfn0)
        have hcsel : c ∈ selected := by
          have := hforall c hcmem
          simp [List.elem_iff, List.contains] at this
          exact this
        have htp0 : (selected.filter (fun i => correct.contains i)).length = 0 := by omega
        have hforall2 := List.filter_eq_nil.mp (List.length_eq_zero.mp htp0)
        have := hforall2 c hcsel
        simp [List.elem_iff, List.contains] at this
        exact this hcmem
      rw [if_neg htotal]
      simp only [htp, hfp, hfn]

/-- C2 witness: Scenario B through the amended theorem — correct [0,2],
selection [0] grades 2. -/
theorem C2_mcqMulti_grading_witness : gradeMcqMulti [0, 2] [0] = 2 := by
  have h := C2_mcqMulti_grading.2 [0, 2] [0] (by decide) (by decide)
  rw [h]
  have h1 : (([0].toFinset ∩ [0, 2].toFinset : Finset ℤ)).card = 1 := by decide
  have h2 : (([0].toFinset \ [0, 2].toFinset : Finset ℤ)).card = 0 := by decide
  have h3 : (([0, 2].toFinset \ [0].toFinset : Finset ℤ)).card = 1 := by decide
  rw [if_neg (by decide : ¬ ([0, 2] : List ℤ) = [])]
  simp only [h1, h2, h3]
  norm_num

/-! ## Claim C5: Scenario E -/

theorem similarity_pariz : similarity "pariz" "paris" = 4/5 := by
  rw [similarity_formula "pariz" "paris" (Or.inl (by decide))]
  have hd : levenshteinDistance "pariz" "paris" = 1 := by decide
  have h5 : ("pariz" : String).length = 5 := by decide
  have h5b : ("paris" : String).length = 5 := by decide
  rw [hd, h5, h5b]
  norm_num

theorem normalizeText_pariz : normalizeText "pariz" defaultEliminateChars true = "pariz" := by
  decide

theorem gradeText_scenarioE : gradeText noRegex scenarioECard "pariz" defaultSettings = 1 := by
  have hs : defaultSettings.eliminateChars = defaultEliminateChars := rfl
  have hl : defaultSettings.lowercaseNormalization = true := rfl
  have hcanon : scenarioECard.canonicalAnswers = some ["paris"] := rfl
  have hregex : scenarioECard.acceptedRegex = none := rfl
  unfold gradeText
  rw [hs, hl, normalizeText_pariz, hcanon, hregex]
  dsimp only
  have hcont : (["paris"].contains "pariz") = false := by decide
  rw [hcont]
  simp only [Bool.false_eq_true, if_false]
  unfold gradeTextFuzzy
  dsimp only [List.foldl]
  rw [similarity_pariz]
  have hmax : (0 : ℚ) ⊔ (4/5) = 4/5 := max_eq_right (by norm_num)
  rw [hmax]
  have hstrict : isStrictDefinitionCard scenarioECard = false := by decide
  have hsingle : (["paris"].all isSingleTermAnswer) = true := by decide
  rw [hstrict, hsingle]
  simp only [Bool.false_eq_true, if_false, if_true]
  rw [if_pos (show defaultSettings.fuzzyThresholds.low ≤ (4:ℚ)/5 by norm_num [defaultSettings])]

/-- C5 counterexample: the claim says the Scenario E input "pariz"
against canonical answer "paris" grades 2; the code grades 1 (not 2),
because "paris" is a single token and the strict-vocabulary override
caps fuzzy matches at grade 1. -/
theorem C5_scenarioE_counterexample :
    gradeText noRegex scenarioECard "pariz" defaultSettings ≠ 2 := by
  rw [gradeText_scenarioE]
  decide

/-- C5 amended: the best similarity for input "pariz" is 0.8, and the
resulting grade is 1: every canonical answer ("paris") is a single
token, so the card takes the strict-vocabulary path, where a score at
or above the low threshold 0.7 grades 1. -/
theorem C5_scenarioE_amended :
    similarity "pariz" "paris" = 4/5
    ∧ isSingleTermAnswer "paris" = true
    ∧ gradeText noRegex scenarioECard "pariz" defaultSettings = 1 :=
  ⟨similarity_pariz, by decide, gradeText_scenarioE⟩

/-! ## Claim C10: findBestMatch -/

theorem bestMatch_foldl_zero (input : String) :
    ∀ (ps : List (ℕ × String)) (st : BestMatch),
      (∀ p ∈ ps, similarity input p.2 = 0) → st.score = 0 →
      ps.foldl (bestMatchStep input) st = st := by
  intro ps
  induction ps with
  | nil => intro st h h0; rfl
  | cons p ps ih =>
      intro st h h0
      have hp : similarity input p.2 = 0 := h p (by simp)
      have hstep : bestMatchStep input st p = st := by
        simp only [bestMatchStep, hp, h0]
        norm_num
      rw [List.foldl_cons, hstep]
      exact ih st (fun q hq => h q (by simp [hq])) h0

theorem bestMatch_foldl_pos (input : String) :
    ∀ (ps : List (ℕ × String)) (st : BestMatch),
      0 ≤ st.score → (∀ m, st.matched = some m → 0 < st.score) →
      0 ≤ (ps.foldl (bestMatchStep input) st).score
      ∧ (∀ m, (ps.foldl (bestMatchStep input) st).matched = some m →
          0 < (ps.foldl (bestMatchStep input) st).score) := by
  intro ps
  induction ps with
  | nil => intro st h1 h2; exact ⟨h1, h2⟩
  | cons p ps ih =>
      intro st h1 h2
      rw [List.foldl_cons]
      have hnew : 0 ≤ (bestMatchStep input st p).score
          ∧ (∀ m, (bestMatchStep input st p).matched = some m →
              0 < (bestMatchStep input st p).score) := by
        simp only [bestMatchStep]
        by_cases hlt : st.score < similarity input p.2
        · rw [if_pos hlt]
          exact ⟨le_of_lt (lt_of_le_of_lt h1 hlt),
            fun m _ => lt_of_le_of_lt h1 hlt⟩
        · rw [if_neg hlt]
          exact ⟨h1, h2⟩
      exact ih _ hnew.1 hnew.2

/-- C10: findBestMatch returns the sentinel (no match, score 0,
index -1) not only for an empty candidate list but whenever every
candidate has similarity 0 to the input; a candidate is only ever
selected together with a strictly positive score. -/
theorem C10_findBestMatch_sentinel :
    (∀ (input : String) (candidates : List String),
        (∀ c ∈ candidates, similarity input c = 0) →
        findBestMatch input candidates = ⟨none, 0, -1⟩)
    ∧ (∀ (input : String) (candidates : List String) (m : String),
        (findBestMatch input candidates).matched = some m →
        0 < (findBestMatch input candidates).score) := by
  constructor
  · intro input candidates h
    unfold findBestMatch
    by_cases hc : candidates = []
    · rw [if_pos hc]
    · rw [if_neg hc]
      refine bestMatch_foldl_zero input candidates.enum ⟨none, 0, -1⟩ ?_ rfl
      intro p hp
      apply h
      have : p.2 ∈ candidates.enum.map Prod.snd := List.mem_map_of_mem Prod.snd hp
      rwa [List.enum_map_snd] at this
  · intro input candidates m
    unfold findBestMatch
    by_cases hc : candidates = []
    · rw [if_pos hc]
      intro h
      exact absurd h (by simp)
    · rw [if_neg hc]
      have h := bestMatch_foldl_pos input candidates.enum ⟨none, 0, -1⟩
        le_rfl (fun m hm => by simp at hm)
      exact h.2 m

/-- C10 witness: the empty input against the nonempty candidate list
["a"] hits the sentinel. -/
theorem C10_findBestMatch_sentinel_witness :
    findBestMatch "" ["a"] = ⟨none, 0, -1⟩ := by
  refine C10_findBestMatch_sentinel.1 "" ["a"] ?_
  intro c hcm
  have hc : c = "a" := by simpa using hcm
  subst hc
  unfold similarity
  rw [if_neg (by decide : ¬ ("" : String) = "a"),
    if_neg (by decide : ¬ (("" : String).length = 0 ∧ ("a" : String).length = 0)),
    if_pos (show ("" : String).length = 0 ∨ ("a" : String).length = 0 from Or.inl (by decide))]

/-! ## Claim C8: grader totality and regex containment -/

theorem gradeMcqSingle_le (card : Card) (ua : Answer) : gradeMcqSingle card ua ≤ 3 := by
  unfold gradeMcqSingle
  cases card.correct <;> cases ua <;> simp <;> split_ifs <;> omega

theorem gradeMcqMulti_le (l sel : List ℤ) : gradeMcqMulti l sel ≤ 3 := by
  simp only [gradeMcqMulti]
  split_ifs <;> omega

theorem gradeTextFuzzy_le (card : Card) (ni : String) (ca : List String) (s : GSettings) :
    gradeTextFuzzy card ni ca s ≤ 3 := by
  simp only [gradeTextFuzzy]
  split_ifs <;> omega

theorem gradeText_le (rc : String → Option (String → Bool)) (card : Card)
    (ua : String) (s : GSettings) : gradeText rc card ua s ≤ 3 := by
  simp only [gradeText]
  cases hA : card.acceptedRegex with
  | none =>
      dsimp only
      split_ifs <;> first | omega | exact gradeTextFuzzy_le _ _ _ _
  | some r =>
      dsimp only
      split_ifs with h1 h2
      · omega
      · exact gradeTextFuzzy_le _ _ _ _
      · cases hR : rc r with
        | none => exact gradeTextFuzzy_le _ _ _ _
        | some test =>
            dsimp only
            split_ifs
            · omega
            · exact gradeTextFuzzy_le _ _ _ _

theorem clozeBlankGrade_le (expected actual : String) (s : GSettings) :
    clozeBlankGrade expected actual s ≤ 3 := by
  simp only [clozeBlankGrade]
  split_ifs <;> omega

theorem gradeCloze_le (card : Card) (uas : List String) (s : GSettings) :
    gradeCloze card uas s ≤ 3 := by
  simp only [gradeCloze]
  split_ifs <;> omega

/-- C8: on shape-consistent inputs the grader is total with a grade in
{0,1,2,3}; a card whose kind is none of the five known kinds grades 0;
and a text/audio card whose acceptedRegex fails to compile (the oracle
returns none, the catch path of the source) grades exactly as the same
card without a regex — the check is skipped and grading falls through
to the fuzzy path. -/
theorem C8_grader_total :
    (∀ (rc : String → Option (String → Bool)) (card : Card) (ua : Answer) (s : GSettings),
        WellShaped card ua → ∃ g, gradeAnswer rc card ua s = some g ∧ g ≤ 3)
    ∧ (∀ (rc : String → Option (String → Bool)) (card : Card) (ua : Answer) (s : GSettings),
        card.kind ≠ "mcq-single" → card.kind ≠ "mcq-multi" → card.kind ≠ "text" →
        card.kind ≠ "cloze" → card.kind ≠ "audio" →
        gradeAnswer rc card ua s = some 0)
    ∧ (∀ (rc : String → Option (String → Bool)) (card : Card) (ua : String)
        (s : GSettings) (r : String),
        card.acceptedRegex = some r → rc r = none →
        gradeText rc card ua s = gradeText rc { card with acceptedRegex := none } ua s) := by
  refine ⟨?_, ?_, ?_⟩
  · intro rc card ua s hws
    unfold gradeAnswer
    by_cases h1 : card.kind = "mcq-single"
    · rw [if_pos h1]
      exact ⟨_, rfl, gradeMcqSingle_le card ua⟩
    · rw [if_neg h1]
      by_cases h2 : card.kind = "mcq-multi"
      · rw [if_pos h2]
        obtain ⟨⟨l, hl⟩, hidx⟩ := hws.1 h2
        subst hl
        rcases hcorr : card.correct with _ | n | ll
        · exact ⟨0, rfl, by omega⟩
        · dsimp only
          have h0 := hidx n hcorr
          subst h0
          exact ⟨0, rfl, by omega⟩
        · exact ⟨_, rfl, gradeMcqMulti_le ll l⟩
      · rw [if_neg h2]
        by_cases h3 : card.kind = "text"
        · rw [if_pos h3]
          obtain ⟨t, ht⟩ := hws.2 (Or.inl h3)
          subst ht
          exact ⟨_, rfl, gradeText_le rc card t s⟩
        · rw [if_neg h3]
          by_cases h4 : card.kind = "cloze"
          · rw [if_pos h4]
            obtain ⟨t, ht⟩ := hws.2 (Or.inr (Or.inr h4))
            subst ht
            exact ⟨_, rfl, gradeCloze_le card _ s⟩
          · rw [if_neg h4]
            by_cases h5 : card.kind = "audio"
            · rw [if_pos h5]
              obtain ⟨t, ht⟩ := hws.2 (Or.inr (Or.inl h5))
              subst ht
              exact ⟨_, rfl, gradeText_le rc card t s⟩
            · rw [if_neg h5]
              exact ⟨0, rfl, by omega⟩
  · intro rc card ua s h1 h2 h3 h4 h5
    unfold gradeAnswer
    rw [if_neg h1, if_neg h2, if_neg h3, if_neg h4, if_neg h5]
  · intro rc card ua s r hr hrc
    unfold gradeText
    rw [hr]
    dsimp only
    rw [hrc]
    dsimp only
    rw [ite_self]
    rfl

/-- C8 witness: the theorem applied to the Scenario E text card with the
string answer "paris". -/
theorem C8_grader_total_witness :
    ∃ g, gradeAnswer noRegex scenarioECard (Answer.str "paris") defaultSettings = some g
      ∧ g ≤ 3 :=
  C8_grader_total.1 noRegex scenarioECard (Answer.str "paris") defaultSettings
    ⟨fun h => absurd h (by decide), fun _ => ⟨"paris", rfl⟩⟩

/-! ## Claim C1: deck stickiness -/

/-- C1: the selection pipeline never consults the active deck.  With
deck "A" active and its card cardA due and not snoozed, the handler
still returns the deck-"B" card cardB (new cards sort first), switching
decks while the active deck has an available card.  The Settings screen
documents the opposite ("Quizzes stay on this deck until it has no due
cards"), so this is a divergence between the code and its own
documentation. -/
theorem C1_selection_ignores_activeDeck :
    handleGetNextCard [cardB, cardA] [] 1 = some cardB
    ∧ getNextCardForDomain "facebook.com" [cardB, cardA] 1 = some cardB
    ∧ cardB.deckId = "B"
    ∧ cardA.deckId = "A"
    ∧ cardA.due ≤ 1
    ∧ ([] : List String).contains cardA.id = false := by
  refine ⟨?_, ?_, rfl, rfl, by norm_num [cardA, baseCard], rfl⟩
  case refine_2 =>
    norm_num [getNextCardForDomain, getDueCards, List.insertionSort,
      List.orderedInsert, dueLe, List.filter, cardA, cardB, baseCard]
  norm_num [handleGetNextCard, getDueCards, sortCardsForReview, List.insertionSort,
    List.orderedInsert, dueLe, reviewLe, reviewCmp, List.filter, cardA, cardB, baseCard]
  intro h
  exact absurd h (List.cons_ne_nil _ _)
